import Mathlib

/-!
Verification of the catalog normalization and query layer of the Software
Dashboard repository (`src/app.py`, `src/app_stable.py`).

The pandas `DataFrame` loaded with `dtype=object` is embedded as a list of
column names together with a list of rows; a cell is an `Option String`
(`none` models a missing cell, i.e. pandas `NaN`; `some s` a string cell).
Python string helpers (`strip`, `lower`, `startswith`, `re.escape`,
`re.sub(r"\s+", " ", ...)`) are embedded as structural functions on
`List Char` so that every definition evaluates inside the kernel.
-/

namespace Catalog

/-- ASCII whitespace as recognized by Python's `str.strip` and the regex
class `\s`: space, tab, newline, carriage return, vertical tab, form feed.
(The embedding restricts Python's Unicode whitespace to ASCII.) -/
def pySpace (c : Char) : Bool :=
  c == ' ' || c == '\t' || c == '\n' || c == '\r' || c == Char.ofNat 11 || c == Char.ofNat 12

/-- Model of Python `str.strip()`: drop leading and trailing whitespace. -/
def pyStrip (s : String) : String :=
  String.mk (((s.data.dropWhile pySpace).reverse.dropWhile pySpace).reverse)

/-- Model of Python `str.lower()` (ASCII case folding, as `Char.toLower`). -/
def pyLower (s : String) : String :=
  String.mk (s.data.map Char.toLower)

/-- Model of Python `s.startswith(pre)`. -/
def pyStartswith (s pre : String) : Bool :=
  pre.data.isPrefixOf s.data

/-- Helper for `re.sub(r"\s+", " ", s)`: the flag records whether the
previous character belonged to a whitespace run already replaced. -/
def collapseAux : Bool → List Char → List Char
  | _, [] => []
  | prevWs, c :: rest =>
    if pySpace c then
      if prevWs then collapseAux true rest
      else ' ' :: collapseAux true rest
    else c :: collapseAux false rest

/-- Model of `re.sub(r"\s+", " ", s)`: every maximal whitespace run becomes
a single space. -/
def collapseWs (l : List Char) : List Char := collapseAux false l

/-- `normalize_col` of `src/app.py`:
`re.sub(r"\s+", " ", str(name).strip().lower())`. -/
def normalize_col (name : String) : String :=
  String.mk (collapseWs (pyLower (pyStrip name)).data)

/-- `normalize_col` of `src/app_stable.py`:
`re.sub(r"\s+", " ", str(name or "")).strip().lower()`. -/
def normalize_col_stable (name : String) : String :=
  pyLower (pyStrip (String.mk (collapseWs name.data)))

/-- Model of `Series.astype(str)` on an object cell: pandas stringifies a
missing cell (`NaN`) as `"nan"`. -/
def cellStr : Option String → String
  | none => "nan"
  | some s => s

/-- Model of `str(x or "")` applied to an object cell: `NaN` is truthy in
Python, so a missing cell stringifies to `"nan"`; the empty string is falsy
and maps to `""`. -/
def pyStrOr : Option String → String
  | none => "nan"
  | some s => s

/-- Lexicographic comparison of character lists by code point, the order
Python (and hence pandas `sort_values` on string cells) uses. -/
def lexLe : List Char → List Char → Bool
  | [], _ => true
  | _ :: _, [] => false
  | c :: cs, d :: ds => if c < d then true else if d < c then false else lexLe cs ds

/-- Lexicographic comparison of strings by code point. -/
def strLe (a b : String) : Bool := lexLe a.data b.data

/-- Stable ordered insertion: the new element is placed before the first
existing element it compares less-or-equal to, so elements already in the
list that compare equal to it stay in front of later-inserted ones. -/
def insertOrd (le : α → α → Bool) (a : α) : List α → List α
  | [] => [a]
  | b :: l => if le a b then a :: b :: l else b :: insertOrd le a l

/-- Stable ascending sort (model of pandas `sort_values(kind="mergesort")`:
a stable sort's output is uniquely determined by the key order and the
input order, so any stable ascending sort denotes the same function). -/
def sortOrd (le : α → α → Bool) : List α → List α
  | [] => []
  | a :: l => insertOrd le a (sortOrd le l)

/-- Helper for `pdUnique`, carrying the set of values already emitted. -/
def pdUniqueAux [DecidableEq α] (seen : List α) : List α → List α
  | [] => []
  | a :: l => if a ∈ seen then pdUniqueAux seen l else a :: pdUniqueAux (a :: seen) l

/-- Model of pandas `drop_duplicates()` / `Series.unique()`: keep the first
occurrence of every value, in encounter order (pandas treats all `NaN`s as
one value, matching decidable equality on `Option String`). -/
def pdUnique [DecidableEq α] (l : List α) : List α := pdUniqueAux [] l

/-- Model of boolean-mask selection `df[mask]`: keep the entries whose mask
bit is true, in order. -/
def selectMask : List α → List Bool → List α
  | [], _ => []
  | _ :: _, [] => []
  | a :: l, b :: m => if b then a :: selectMask l m else selectMask l m

/-- Regex metacharacters of Python's `re` module (significant when they
appear unescaped in a pattern). -/
def isMeta (c : Char) : Bool :=
  c == '.' || c == '^' || c == '$' || c == '*' || c == '+' || c == '?' ||
  c == Char.ofNat 123 || c == Char.ofNat 125 || c == '[' || c == ']' ||
  c == '\\' || c == '|' || c == '(' || c == ')'

/-- The characters `re.escape` (Python 3.7+) puts a backslash before. -/
def reEscaped (c : Char) : Bool :=
  c == '(' || c == ')' || c == '[' || c == ']' ||
  c == Char.ofNat 123 || c == Char.ofNat 125 ||
  c == '?' || c == '*' || c == '+' || c == '-' || c == '|' || c == '^' ||
  c == '$' || c == '\\' || c == '.' || c == '&' || c == '~' || c == '#' ||
  c == ' ' || c == '\t' || c == '\n' || c == '\r' ||
  c == Char.ofNat 11 || c == Char.ofNat 12

/-- The escaped form of one character under `re.escape`. -/
def escapeChar (c : Char) : List Char :=
  if reEscaped c then ['\\', c] else [c]

/-- Model of Python `re.escape`. -/
def reEscape (s : String) : String :=
  String.mk ((s.data.map escapeChar).flatten)

/-- Parser worker for escaped literal patterns; the flag records a pending
backslash whose next character is taken literally. -/
def parseEsc : Bool → List Char → Option (List Char)
  | false, [] => some []
  | false, c :: rest =>
    if c = '\\' then parseEsc true rest
    else if isMeta c then none
    else (parseEsc false rest).map (fun l => c :: l)
  | true, [] => none
  | true, d :: rest => (parseEsc false rest).map (fun l => d :: l)

/-- Parse a regex pattern that only contains literal characters and
backslash escapes into the literal character sequence it matches; a pattern
with an unescaped metacharacter (or a trailing backslash) is refused. -/
def parseEscaped (l : List Char) : Option (List Char) := parseEsc false l

/-- Contiguous-substring occurrence check on character lists. -/
def infixCheck (pat : List Char) : List Char → Bool
  | [] => pat.isEmpty
  | c :: rest => pat.isPrefixOf (c :: rest) || infixCheck pat rest

/-- Model of `Series.str.contains(pat, case=icase?, regex=True)` on one
string, restricted to patterns without unescaped metacharacters (the only
patterns the apps build are `re.escape(query)`); a pattern outside that
fragment is outside this model and yields `false`. -/
def pyContains (s pat : String) (icase : Bool) : Bool :=
  match parseEscaped pat.data with
  | some lits =>
      if icase then infixCheck (lits.map Char.toLower) (s.data.map Char.toLower)
      else infixCheck lits s.data
  | none => false

/-- The loaded spreadsheet: ordered column names and rows of object cells. -/
structure DataFrame where
  cols : List String
  rows : List (List (Option String))
deriving DecidableEq

/-- Index of the first column with the given name. -/
def colIdx : List String → String → Option Nat
  | [], _ => none
  | c :: rest, name =>
    if c == name then some 0 else (colIdx rest name).map (fun i => i + 1)

/-- Model of `df[name]`: the cell of each row under the named column
(empty when the column is absent; the apps only read existing columns). -/
def getCol (df : DataFrame) (name : String) : List (Option String) :=
  match colIdx df.cols name with
  | some i => df.rows.map (fun r => r.getD i none)
  | none => []

/-- Model of `df.rename(columns={o: n})`. -/
def rename (df : DataFrame) (o n : String) : DataFrame :=
  { df with cols := df.cols.map (fun c => if c = o then n else c) }

/-- Rename when a source column was found, identity otherwise. -/
def renameOpt (df : DataFrame) (o : Option String) (n : String) : DataFrame :=
  match o with
  | some c => rename df c n
  | none => df

/-- Model of `df.columns = [str(c).strip() for c in df.columns]`. -/
def stripCols (df : DataFrame) : DataFrame :=
  { df with cols := df.cols.map pyStrip }

/-- Lookup in the dict `{f(c): c for c in cols}`: Python dict comprehension
keeps the last column for every normalized key. -/
def lookupLast (f : String → String) (cols : List String) (k : String) : Option String :=
  (cols.filter (fun c => f c == k)).getLast?

/-- First key of the list that the dict `{f(c): c for c in cols}` holds,
returning that dict entry (the loop `for key in [...]: if key in norm_map`). -/
def firstLookup (f : String → String) (cols : List String) : List String → Option String
  | [] => none
  | k :: ks =>
    match lookupLast f cols k with
    | some c => some c
    | none => firstLookup f cols ks

/-- First key of the list for which some header matches, returning the
first matching header in header order (the loops `for c in cols`). -/
def firstFindBy (f : String → String) (cols : List String) : List String → Option String
  | [] => none
  | k :: ks =>
    match cols.find? (fun c => f c == k) with
    | some c => some c
    | none => firstFindBy f cols ks

/-- The column `coerce_to_software_column` of `src/app.py` renames to
`"Software"`: key `"software"` in the normalized-header dict, else
`"component"`, else the first key of the fallback list present in the dict. -/
def software_key (cols : List String) : Option String :=
  match lookupLast normalize_col cols "software" with
  | some c => some c
  | none =>
    match lookupLast normalize_col cols "component" with
    | some c => some c
    | none =>
      firstLookup normalize_col cols
        ["name", "item", "asset", "module", "service", "application", "app name", "product"]

/-- `coerce_to_software_column` of `src/app.py` (the source's
`if orig != "Software"` guard only skips a rename that is the identity). -/
def coerce_to_software_column (df : DataFrame) : DataFrame :=
  renameOpt df (software_key df.cols) "Software"

/-- The column the software branch of `coerce_to_oss_columns`
(`src/app_stable.py`) renames to `"Software"`: key `"software name"`, else
`"software"`, else the first key of `["name", "product", "application",
"app name", "component"]` present in the normalized-header dict. -/
def software_key_stable (cols : List String) : Option String :=
  match lookupLast normalize_col_stable cols "software name" with
  | some c => some c
  | none =>
    match lookupLast normalize_col_stable cols "software" with
    | some c => some c
    | none =>
      firstLookup normalize_col_stable cols
        ["name", "product", "application", "app name", "component"]

/-- `find_version_column` of `src/app_stable.py`: first header whose
normalized key starts with `"latest version (as of"`, else the first header
matching `"version"`, `"latest version"`, `"current version"` in that order. -/
def find_version_column (cols : List String) : Option String :=
  match cols.find? (fun c => pyStartswith (normalize_col_stable c) "latest version (as of") with
  | some c => some c
  | none => firstFindBy normalize_col_stable cols ["version", "latest version", "current version"]

/-- The description source column of `coerce_to_oss_columns`: key
`"notes"` preferred over `"description"`. -/
def description_key (cols : List String) : Option String :=
  match lookupLast normalize_col_stable cols "notes" with
  | some c => some c
  | none => lookupLast normalize_col_stable cols "description"

/-- `coerce_to_oss_columns` of `src/app_stable.py`: a chain of renames onto
the unified schema; the lookups for category, license, the platform URLs and
the description use the normalized-header dict built from the original
columns, while the version detection scans the columns after the software
rename, exactly as in the source. -/
def coerce_to_oss_columns (df0 : DataFrame) : DataFrame :=
  let cols := df0.cols
  let df1 := renameOpt df0 (software_key_stable cols) "Software"
  let df2 := renameOpt df1 (find_version_column df1.cols) "Version"
  let df3 := renameOpt df2 (lookupLast normalize_col_stable cols "category") "Category"
  let df4 := renameOpt df3 (lookupLast normalize_col_stable cols "license") "License"
  let df5 := renameOpt df4 (lookupLast normalize_col_stable cols "windows download url") "WindowsURL"
  let df6 := renameOpt df5 (lookupLast normalize_col_stable cols "macos download url") "MacURL"
  let df7 := renameOpt df6 (lookupLast normalize_col_stable cols "linux download url") "LinuxURL"
  renameOpt df7 (description_key cols) "Description"

/-- The one fatal pipeline error the module-level code signals via
`st.error` + `st.stop()`. -/
inductive PrepError
  | configurationError
deriving DecidableEq

/-- The module-level data preparation of `src/app.py`: strip the column
names, coerce the identity column, and stop with a configuration error when
no `"Software"` column results (the `astype(object)` loop is the identity
on object cells and is omitted). -/
def prepareApp (df : DataFrame) : Except PrepError DataFrame :=
  if "Software" ∈ (coerce_to_software_column (stripCols df)).cols
  then Except.ok (coerce_to_software_column (stripCols df))
  else Except.error PrepError.configurationError

/-- Model of `df[name] = None`: append a column whose cells are all missing. -/
def addCol (df : DataFrame) (name : String) : DataFrame :=
  ⟨df.cols ++ [name], df.rows.map (fun r => r ++ [none])⟩

/-- One step of the backfill loop: `if needed not in df.columns: df[needed] = None`. -/
def ensureCol (df : DataFrame) (name : String) : DataFrame :=
  if name ∈ df.cols then df else addCol df name

/-- The canonical columns the stable variant guarantees. -/
def backfillCols : List String :=
  ["Version", "Category", "License", "WindowsURL", "MacURL", "LinuxURL", "Description"]

/-- The backfill loop of `src/app_stable.py`. -/
def backfill (df : DataFrame) : DataFrame :=
  backfillCols.foldl ensureCol df

/-- The module-level data preparation of `src/app_stable.py`: strip the
column names, coerce to the unified schema, stop when no `"Software"`
column results, then backfill the expected columns. -/
def prepareStable (df : DataFrame) : Except PrepError DataFrame :=
  if "Software" ∈ (coerce_to_oss_columns (stripCols df)).cols
  then Except.ok (backfill (coerce_to_oss_columns (stripCols df)))
  else Except.error PrepError.configurationError

/-- `unique_software` of `src/app.py`:
`df["Software"].dropna().astype(str).map(str.strip).replace("", NA).dropna()
.drop_duplicates().sort_values(kind="mergesort").tolist()`. -/
def unique_software (df : DataFrame) : List String :=
  sortOrd strLe
    (pdUnique
      ((((getCol df "Software").filterMap id).map pyStrip).filter (fun s => !(s == ""))))

/-- The detail lookup of `src/app.py` (lines 294-296): the rows whose
stringified identity equals the selected identity after lowercasing
(`src/app_stable.py` builds the same mask and then consumes the first
matching row as the primary record). -/
def resolve_detail (df : DataFrame) (identity : String) : List (List (Option String)) :=
  selectMask df.rows
    ((getCol df "Software").map (fun c => pyLower (cellStr c) == pyLower identity))

/-- The Download URL validity test of the details panel of `src/app.py`:
`str(base.get("Download URL") or "").strip()` starts (case-insensitively)
with `"http://"` or `"https://"`. -/
def downloadUrlValid (v : Option String) : Bool :=
  pyStartswith (pyLower (pyStrip (pyStrOr v))) "http://" ||
  pyStartswith (pyLower (pyStrip (pyStrOr v))) "https://"

/-- The validity test of `link_button` in `src/app_stable.py`:
`url_s = (url or "").strip()` must be non-empty and start with an http(s)
scheme, else the function reports no valid link (`none` models Python
`None`). -/
def link_button_valid (url : Option String) : Bool :=
  !(pyStrip (url.getD "") == "") &&
    (pyStartswith (pyLower (pyStrip (url.getD ""))) "http://" ||
     pyStartswith (pyLower (pyStrip (url.getD ""))) "https://")

/-- The Software cell of one row of a data frame. -/
def softwareCell (df : DataFrame) (r : List (Option String)) : Option String :=
  match colIdx df.cols "Software" with
  | some i => r.getD i none
  | none => none

/-- The search filter of `src/app.py` (lines 232-236):
`df["Software"].astype(str).str.contains(re.escape(query), case=False)`. -/
def searchFilterApp (df : DataFrame) (q : String) : DataFrame :=
  if q == "" then df
  else
    ⟨df.cols,
     selectMask df.rows
       ((getCol df "Software").map (fun c => pyContains (cellStr c) (reEscape q) true))⟩

/-- Ordering of Software cells under `sort_values`: strings by code point,
missing cells last (pandas `na_position="last"`). -/
def cellLe (a b : Option String) : Bool :=
  match a, b with
  | none, none => true
  | none, some _ => false
  | some _, none => true
  | some x, some y => lexLe x.data y.data

/-- `filtered.sort_values(by="Software", kind="mergesort")`. -/
def sortRowsBySoftware (df : DataFrame) : DataFrame :=
  ⟨df.cols, sortOrd (fun r1 r2 => cellLe (softwareCell df r1) (softwareCell df r2)) df.rows⟩

/-- Python truthiness of the selection state: `None` and the empty string
are falsy; a missing cell (`NaN`, a non-zero float) is truthy. -/
def pyFalsy : Option (Option String) → Bool
  | none => true
  | some none => false
  | some (some s) => s == ""

/-- The auto-select step of `src/app.py` (lines 288-292): when the current
selection is falsy, the query is non-empty, and the filtered Software
column has exactly one distinct value, that value (`iloc[0]`) becomes the
selection (`headD` stands for `iloc[0]`, which the guard keeps in range). -/
def autoSelectApp (sel : Option (Option String)) (q : String) (filtered : DataFrame) :
    Option (Option String) :=
  if pyFalsy sel && !(q == "") && (pdUnique (getCol filtered "Software")).length == 1
  then some ((getCol filtered "Software").headD none)
  else sel

/-- The identity-column inference rule exactly as the specification words
it: a header whose normalized key equals "software" or "software name",
else "component", else the first match, in this listed order, among the
eight fallback keys. Stated for comparison against the code. -/
def spec_identity_inference (cols : List String) : Option String :=
  match cols.find? (fun c => normalize_col c == "software" || normalize_col c == "software name") with
  | some c => some c
  | none =>
    match cols.find? (fun c => normalize_col c == "component") with
    | some c => some c
    | none =>
      firstFindBy normalize_col cols
        ["name", "item", "asset", "module", "service", "application", "app name", "product"]

/-- The inference rule `src/app.py` actually implements, in find-first
form: key "software" only, else "component", else the fallback list. -/
def spec_identity_app (cols : List String) : Option String :=
  match cols.find? (fun c => normalize_col c == "software") with
  | some c => some c
  | none =>
    match cols.find? (fun c => normalize_col c == "component") with
    | some c => some c
    | none =>
      firstFindBy normalize_col cols
        ["name", "item", "asset", "module", "service", "application", "app name", "product"]

/-- The inference rule `src/app_stable.py` actually implements, in
find-first form: "software name", else "software", else the first of
["name", "product", "application", "app name", "component"]. -/
def spec_identity_stable (cols : List String) : Option String :=
  match cols.find? (fun c => normalize_col_stable c == "software name") with
  | some c => some c
  | none =>
    match cols.find? (fun c => normalize_col_stable c == "software") with
    | some c => some c
    | none =>
      firstFindBy normalize_col_stable cols
        ["name", "product", "application", "app name", "component"]

/-- The category predicate of the query layer: no filter, or the sentinel
"all", accepts every record; otherwise the record's category must equal the
filter case-insensitively. -/
def matchesCategory (cf : Option String) (cat : Option String) : Bool :=
  match cf with
  | none => true
  | some f =>
    if pyLower f == "all" then true
    else
      match cat with
      | some c => pyLower c == pyLower f
      | none => false

/-- Does the identity start, case-insensitively, with the partial query? -/
def startsWithPartial (p s : String) : Bool :=
  pyStartswith (pyLower s) (pyLower p)

/-- Does the identity contain, case-insensitively, the partial query? -/
def containsPartial (p s : String) : Bool :=
  infixCheck (pyLower p).data (pyLower s).data

/-- Modelled from the spec: the distinct identities of the records passing
the category filter, in encounter order (input to the two-tier ranking).
The repository contains no implementation of `suggest`; §4.2 of the
specification defines it, so it is built here from the spec's words. -/
def suggestIdents (table : List (String × Option String)) (cf : Option String) : List String :=
  pdUnique ((table.filter (fun r => matchesCategory cf r.2)).map (fun r => r.1))

/-- Modelled from the spec: the repository contains no implementation of
`suggest`; §4.2 of the specification defines it. A record is an
(identity, category) pair. An empty partial yields no suggestions;
otherwise the distinct identities of the records passing the category
filter are ranked in two tiers — those whose case-insensitive text starts
with the partial, then those that merely contain it — each tier ascending,
and the concatenation is truncated to `limit` entries. -/
def suggest (table : List (String × Option String)) (p : String) (cf : Option String)
    (limit : Nat) : List String :=
  if p == "" then []
  else
    ((sortOrd strLe ((suggestIdents table cf).filter (fun s => startsWithPartial p s))) ++
     (sortOrd strLe ((suggestIdents table cf).filter
        (fun s => containsPartial p s && !(startsWithPartial p s))))).take limit

/-- A data frame is rectangular when every row has one cell per column
(always true of a loaded spreadsheet). -/
abbrev Rect (df : DataFrame) : Prop :=
  ∀ r ∈ df.rows, r.length = df.cols.length

/-- The raw table of the spec's row-exclusion example: one whitespace-only
identity and one real identity. -/
def exampleWsTable : DataFrame :=
  ⟨["Software"], [[some " "], [some "Tool A"]]⟩

/-- What `prepareStable` produces on `exampleWsTable`. -/
def exampleWsStableResult : DataFrame :=
  ⟨["Software", "Version", "Category", "License", "WindowsURL", "MacURL", "LinuxURL", "Description"],
   [[some " ", none, none, none, none, none, none, none],
    [some "Tool A", none, none, none, none, none, none, none]]⟩

/-- Two records sharing the display name "Widget" (the spec's duplicate
identity scenario). -/
def widgetTable : DataFrame :=
  ⟨["Software", "Version"], [[some "Widget", some "1.0"], [some "Widget", some "2.0"]]⟩

/-- A table with no identity-inferable header. -/
def fooBarTable : DataFrame :=
  ⟨["Foo", "Bar"], [[some "1", some "2"]]⟩

/-- A minimal table for exercising the stable pipeline. -/
def oneItemTable : DataFrame :=
  ⟨["Software"], [[some "A"]]⟩

/-- What `prepareStable` produces on `oneItemTable`. -/
def oneItemStableResult : DataFrame :=
  ⟨["Software", "Version", "Category", "License", "WindowsURL", "MacURL", "LinuxURL", "Description"],
   [[some "A", none, none, none, none, none, none, none]]⟩

/-- A one-row table whose identity matches the query "wid". -/
def widTable : DataFrame :=
  ⟨["Software"], [[some "Widget"]]⟩

/-! ### Basic facts about the list primitives -/

theorem selectMask_map (p : α → Bool) (l : List α) :
    selectMask l (l.map p) = l.filter p := by
  induction l with
  | nil => rfl
  | cons a t ih =>
    simp only [List.map_cons, selectMask]
    by_cases h : p a = true
    · simp [h, ih, List.filter_cons]
    · simp [h, ih, List.filter_cons]

theorem mem_pdUniqueAux [DecidableEq α] (b : α) (seen l : List α) :
    b ∈ pdUniqueAux seen l ↔ b ∈ l ∧ b ∉ seen := by
  induction l generalizing seen with
  | nil => simp [pdUniqueAux]
  | cons a t ih =>
    simp only [pdUniqueAux]
    by_cases h : a ∈ seen
    · rw [if_pos h, ih]
      simp only [List.mem_cons]
      constructor
      · rintro ⟨hb, hn⟩
        exact ⟨Or.inr hb, hn⟩
      · rintro ⟨hb | hb, hn⟩
        · subst hb
          exact absurd h hn
        · exact ⟨hb, hn⟩
    · rw [if_neg h]
      simp only [List.mem_cons, ih, List.mem_cons, not_or]
      constructor
      · rintro (rfl | ⟨hb, hba, hn⟩)
        · exact ⟨Or.inl rfl, h⟩
        · exact ⟨Or.inr hb, hn⟩
      · rintro ⟨rfl | hb, hn⟩
        · exact Or.inl rfl
        · by_cases hba : b = a
          · exact Or.inl hba
          · exact Or.inr ⟨hb, hba, hn⟩

theorem nodup_pdUniqueAux [DecidableEq α] (seen l : List α) :
    (pdUniqueAux seen l).Nodup := by
  induction l generalizing seen with
  | nil => simp [pdUniqueAux]
  | cons a t ih =>
    simp only [pdUniqueAux]
    by_cases h : a ∈ seen
    · rw [if_pos h]
      exact ih seen
    · rw [if_neg h]
      refine List.nodup_cons.2 ⟨?_, ih (a :: seen)⟩
      intro hmem
      rcases (mem_pdUniqueAux a (a :: seen) t).1 hmem with ⟨_, hn⟩
      exact hn (List.mem_cons_self a seen)

theorem mem_pdUnique [DecidableEq α] (b : α) (l : List α) :
    b ∈ pdUnique l ↔ b ∈ l := by
  simpa using mem_pdUniqueAux b [] l

theorem nodup_pdUnique [DecidableEq α] (l : List α) : (pdUnique l).Nodup :=
  nodup_pdUniqueAux [] l

theorem pdUniqueAux_eq_nil [DecidableEq α] {seen l : List α}
    (h : pdUniqueAux seen l = []) : ∀ x ∈ l, x ∈ seen := by
  induction l generalizing seen with
  | nil => simp
  | cons a t ih =>
    simp only [pdUniqueAux] at h
    by_cases ha : a ∈ seen
    · rw [if_pos ha] at h
      intro x hx
      rcases List.mem_cons.1 hx with rfl | hx
      · exact ha
      · exact ih h x hx
    · rw [if_neg ha] at h
      cases h

theorem pdUnique_eq_singleton [DecidableEq α] {l : List α} {v : α}
    (h : pdUnique l = [v]) : l ≠ [] ∧ ∀ x ∈ l, x = v := by
  cases l with
  | nil => cases h
  | cons a t =>
    have hnm : a ∉ ([] : List α) := List.not_mem_nil a
    rw [pdUnique, pdUniqueAux, if_neg hnm] at h
    injection h with h1 h2
    subst h1
    refine ⟨by simp, ?_⟩
    intro x hx
    rcases List.mem_cons.1 hx with rfl | hx
    · rfl
    · simpa using pdUniqueAux_eq_nil h2 x hx

theorem insertOrd_perm (le : α → α → Bool) (a : α) (l : List α) :
    (insertOrd le a l).Perm (a :: l) := by
  induction l with
  | nil => exact List.Perm.refl _
  | cons b t ih =>
    simp only [insertOrd]
    by_cases h : le a b = true
    · rw [if_pos h]
    · rw [if_neg h]
      exact (List.Perm.cons b ih).trans (List.Perm.swap a b t)

theorem sortOrd_perm (le : α → α → Bool) (l : List α) : (sortOrd le l).Perm l := by
  induction l with
  | nil => exact List.Perm.refl _
  | cons a t ih =>
    simp only [sortOrd]
    exact (insertOrd_perm le a (sortOrd le t)).trans (List.Perm.cons a ih)

theorem mem_sortOrd (le : α → α → Bool) {l : List α} {x : α} :
    x ∈ sortOrd le l ↔ x ∈ l :=
  (sortOrd_perm le l).mem_iff

theorem nodup_sortOrd (le : α → α → Bool) {l : List α} (h : l.Nodup) :
    (sortOrd le l).Nodup :=
  ((sortOrd_perm le l).nodup_iff).2 h

theorem insertOrd_pairwise (le : α → α → Bool)
    (htrans : ∀ a b c, le a b = true → le b c = true → le a c = true)
    (htot : ∀ a b, le a b = true ∨ le b a = true)
    (a : α) {l : List α} (h : List.Pairwise (fun x y => le x y = true) l) :
    List.Pairwise (fun x y => le x y = true) (insertOrd le a l) := by
  induction l with
  | nil => simp [insertOrd]
  | cons b t ih =>
    simp only [insertOrd]
    rcases List.pairwise_cons.1 h with ⟨hb, ht⟩
    by_cases hab : le a b = true
    · rw [if_pos hab]
      refine List.pairwise_cons.2 ⟨?_, h⟩
      intro y hy
      rcases List.mem_cons.1 hy with rfl | hy
      · exact hab
      · exact htrans a b y hab (hb y hy)
    · rw [if_neg hab]
      refine List.pairwise_cons.2 ⟨?_, ih ht⟩
      intro y hy
      rcases List.mem_cons.1 ((insertOrd_perm le a t).mem_iff.1 hy) with hya | hy
      · rw [hya]
        rcases htot a b with hc | hc
        · exact absurd hc hab
        · exact hc
      · exact hb y hy

theorem sortOrd_pairwise (le : α → α → Bool)
    (htrans : ∀ a b c, le a b = true → le b c = true → le a c = true)
    (htot : ∀ a b, le a b = true ∨ le b a = true)
    (l : List α) :
    List.Pairwise (fun x y => le x y = true) (sortOrd le l) := by
  induction l with
  | nil => simp [sortOrd]
  | cons a t ih => exact insertOrd_pairwise le htrans htot a ih

theorem lexLe_total (a b : List Char) : lexLe a b = true ∨ lexLe b a = true := by
  induction a generalizing b with
  | nil => exact Or.inl rfl
  | cons c cs ih =>
    cases b with
    | nil => exact Or.inr rfl
    | cons d ds =>
      simp only [lexLe]
      rcases lt_trichotomy c d with h | h | h
      · exact Or.inl (by simp [h])
      · subst h
        rcases ih ds with h2 | h2
        · exact Or.inl (by simp [lt_irrefl, h2])
        · exact Or.inr (by simp [lt_irrefl, h2])
      · exact Or.inr (by simp [h])

theorem lexLe_trans (a : List Char) :
    ∀ b c, lexLe a b = true → lexLe b c = true → lexLe a c = true := by
  induction a with
  | nil => intro b c _ _; rfl
  | cons x xs ih =>
    intro b c hab hbc
    cases b with
    | nil => simp [lexLe] at hab
    | cons y ys =>
      cases c with
      | nil => simp [lexLe] at hbc
      | cons z zs =>
        simp only [lexLe] at hab hbc ⊢
        by_cases hxy : x < y
        · by_cases hyz : y < z
          · simp [lt_trans hxy hyz]
          · by_cases hzy : z < y
            · rw [if_neg hyz, if_pos hzy] at hbc
              cases hbc
            · have hyeq : y = z := le_antisymm (not_lt.1 hzy) (not_lt.1 hyz)
              subst hyeq
              simp [hxy]
        · by_cases hyx : y < x
          · rw [if_neg hxy, if_pos hyx] at hab
            cases hab
          · have hxeq : x = y := le_antisymm (not_lt.1 hyx) (not_lt.1 hxy)
            subst hxeq
            rw [if_neg (lt_irrefl x), if_neg (lt_irrefl x)] at hab
            by_cases hyz : x < z
            · simp [hyz]
            · by_cases hzy : z < x
              · rw [if_neg hyz, if_pos hzy] at hbc
                cases hbc
              · have hzeq : x = z := le_antisymm (not_lt.1 hzy) (not_lt.1 hyz)
                subst hzeq
                rw [if_neg (lt_irrefl x), if_neg (lt_irrefl x)] at hbc ⊢
                exact ih ys zs hab hbc

theorem strLe_total (a b : String) : strLe a b = true ∨ strLe b a = true :=
  lexLe_total a.data b.data

theorem strLe_trans (a b c : String) :
    strLe a b = true → strLe b c = true → strLe a c = true :=
  lexLe_trans a.data b.data c.data

theorem dropWhile_dropWhile (p : α → Bool) (l : List α) :
    (l.dropWhile p).dropWhile p = l.dropWhile p := by
  induction l with
  | nil => rfl
  | cons a t ih =>
    by_cases h : p a = true
    · simp [List.dropWhile_cons, h, ih]
    · simp [List.dropWhile_cons, h]

theorem dropWhile_append_singleton (p : α → Bool) {c : α} (hc : ¬p c = true)
    (u : List α) : (u ++ [c]).dropWhile p = u.dropWhile p ++ [c] := by
  induction u with
  | nil => simp [List.dropWhile_cons, hc]
  | cons a t ih =>
    by_cases h : p a = true
    · simp [List.dropWhile_cons, h, ih]
    · simp [List.dropWhile_cons, h]

theorem dropWhile_trim (l : List Char) :
    (((l.dropWhile pySpace).reverse.dropWhile pySpace).reverse).dropWhile pySpace =
      ((l.dropWhile pySpace).reverse.dropWhile pySpace).reverse := by
  induction l with
  | nil => rfl
  | cons a t ih =>
    by_cases h : pySpace a = true
    · rw [List.dropWhile_cons, if_pos h]
      exact ih
    · rw [List.dropWhile_cons, if_neg h, List.reverse_cons,
        dropWhile_append_singleton pySpace h, List.reverse_append]
      simp [List.dropWhile_cons, h]

theorem pyStrip_idem (s : String) : pyStrip (pyStrip s) = pyStrip s := by
  unfold pyStrip
  rw [show (String.mk (((s.data.dropWhile pySpace).reverse.dropWhile pySpace).reverse)).data =
      ((s.data.dropWhile pySpace).reverse.dropWhile pySpace).reverse from rfl]
  rw [dropWhile_trim s.data]
  rw [List.reverse_reverse, dropWhile_dropWhile]

theorem string_data_eq_nil {s : String} : s.data = [] ↔ s = "" := by
  constructor
  · intro h
    exact String.ext h
  · intro h
    subst h
    rfl

/-! ### The normalized-header dict agrees with a first-match scan when the
normalized keys are distinct -/

theorem lookupLast_eq_find (f : String → String) (k : String) {cols : List String}
    (h : (cols.map f).Nodup) :
    lookupLast f cols k = cols.find? (fun c => f c == k) := by
  induction cols with
  | nil => rfl
  | cons a t ih =>
    have h2 : f a ∉ t.map f ∧ (t.map f).Nodup := by
      simpa [List.nodup_cons] using h
    by_cases hk : (f a == k) = true
    · have hfa : f a = k := by simpa using hk
      have hfil : t.filter (fun c => f c == k) = [] := by
        refine List.filter_eq_nil_iff.2 ?_
        intro c hc hfc
        have hck : f c = k := by simpa using hfc
        exact h2.1 (List.mem_map.2 ⟨c, hc, by rw [hck, hfa]⟩)
      simp [lookupLast, List.filter_cons, List.find?_cons, hk, hfil]
    · simp only [lookupLast, List.filter_cons, List.find?_cons, hk, if_false,
        Bool.false_eq_true, ite_false]
      simpa only [lookupLast] using ih h2.2

theorem firstLookup_eq_firstFindBy (f : String → String) {cols : List String}
    (h : (cols.map f).Nodup) (keys : List String) :
    firstLookup f cols keys = firstFindBy f cols keys := by
  induction keys with
  | nil => rfl
  | cons k ks ih =>
    simp only [firstLookup, firstFindBy, lookupLast_eq_find f k h]
    cases cols.find? (fun c => f c == k) with
    | none => exact ih
    | some c => rfl

/-! ### Escaped patterns parse back to their literal text -/

theorem isMeta_escaped {c : Char} (h : isMeta c = true) : reEscaped c = true := by
  simp only [isMeta, Bool.or_eq_true, beq_iff_eq] at h
  simp only [reEscaped, Bool.or_eq_true, beq_iff_eq]
  tauto

theorem parseEscaped_flatten (l : List Char) :
    parseEscaped ((l.map escapeChar).flatten) = some l := by
  induction l with
  | nil => rfl
  | cons c t ih =>
    simp only [List.map_cons, List.flatten_cons]
    by_cases h : reEscaped c = true
    · rw [show escapeChar c = ['\\', c] from by simp [escapeChar, h]]
      show parseEsc false _ = _
      simp only [List.cons_append, List.nil_append]
      rw [parseEsc, if_pos rfl, parseEsc]
      rw [show parseEsc false ((t.map escapeChar).flatten) = some t from ih]
      rfl
    · have hbs : ¬(c = '\\') := by
        intro hh
        subst hh
        exact h (by decide)
      have hm : isMeta c = false := by
        cases hmc : isMeta c
        · rfl
        · exact absurd (isMeta_escaped hmc) h
      rw [show escapeChar c = [c] from by simp [escapeChar, h]]
      show parseEsc false _ = _
      simp only [List.cons_append, List.nil_append]
      rw [parseEsc, if_neg hbs, hm]
      rw [show parseEsc false ((t.map escapeChar).flatten) = some t from ih]
      simp

theorem parseEscaped_reEscape (q : String) :
    parseEscaped (reEscape q).data = some q.data :=
  parseEscaped_flatten q.data

theorem infixCheck_iff (pat hay : List Char) :
    infixCheck pat hay = true ↔ pat <:+: hay := by
  induction hay with
  | nil =>
    simp only [infixCheck, List.isEmpty_iff, List.infix_nil]
  | cons c rest ih =>
    simp only [infixCheck, Bool.or_eq_true, ih]
    rw [ List.infix_cons_iff]
    constructor
    · rintro (h | h)
      · exact Or.inl ( List.isPrefixOf_iff_prefix.1 h)
      · exact Or.inr h
    · rintro (h | h)
      · exact Or.inl ( List.isPrefixOf_iff_prefix.2 h)
      · exact Or.inr h

/-! ### Data-frame plumbing -/

theorem rename_rows (df : DataFrame) (o n : String) : (rename df o n).rows = df.rows := rfl

theorem renameOpt_rows (df : DataFrame) (o : Option String) (n : String) :
    (renameOpt df o n).rows = df.rows := by
  cases o <;> rfl

theorem stripCols_rows (df : DataFrame) : (stripCols df).rows = df.rows := rfl

theorem coerce_software_rows (df : DataFrame) :
    (coerce_to_software_column df).rows = df.rows :=
  renameOpt_rows df (software_key df.cols) "Software"

theorem coerce_oss_rows (df : DataFrame) :
    (coerce_to_oss_columns df).rows = df.rows := by
  unfold coerce_to_oss_columns
  simp only [renameOpt_rows]

theorem rename_cols_length (df : DataFrame) (o n : String) :
    (rename df o n).cols.length = df.cols.length := by
  simp [rename]

theorem renameOpt_cols_length (df : DataFrame) (o : Option String) (n : String) :
    (renameOpt df o n).cols.length = df.cols.length := by
  cases o
  · rfl
  · simp [renameOpt, rename]

theorem coerce_oss_cols_length (df : DataFrame) :
    (coerce_to_oss_columns df).cols.length = df.cols.length := by
  unfold coerce_to_oss_columns
  simp only [renameOpt_cols_length]

theorem colIdx_some_of_mem {cols : List String} {n : String} (h : n ∈ cols) :
    ∃ i, colIdx cols n = some i := by
  induction cols with
  | nil => cases h
  | cons a t ih =>
    by_cases ha : (a == n) = true
    · exact ⟨0, by simp [colIdx, ha]⟩
    · have hn : n ∈ t := by
        rcases List.mem_cons.1 h with rfl | hh
        · exact absurd (by simp) ha
        · exact hh
      rcases ih hn with ⟨j, hj⟩
      exact ⟨j + 1, by simp [colIdx, ha, hj]⟩

theorem getCol_eq_map {df : DataFrame} {n : String} {i : Nat}
    (h : colIdx df.cols n = some i) :
    getCol df n = df.rows.map (fun r => r.getD i none) := by
  rw [getCol, h]

theorem softwareCell_eq {df : DataFrame} {i : Nat}
    (h : colIdx df.cols "Software" = some i) (r : List (Option String)) :
    softwareCell df r = r.getD i none := by
  rw [softwareCell, h]

theorem addCol_rows_length (df : DataFrame) (n : String) :
    (addCol df n).rows.length = df.rows.length := by
  simp [addCol]

theorem ensureCol_rows_length (df : DataFrame) (n : String) :
    (ensureCol df n).rows.length = df.rows.length := by
  unfold ensureCol
  split
  · rfl
  · simp [addCol]

theorem foldl_ensureCol_rows_length (l : List String) (df : DataFrame) :
    (l.foldl ensureCol df).rows.length = df.rows.length := by
  induction l generalizing df with
  | nil => rfl
  | cons n t ih => rw [List.foldl_cons, ih, ensureCol_rows_length]

theorem backfill_rows_length (df : DataFrame) :
    (backfill df).rows.length = df.rows.length :=
  foldl_ensureCol_rows_length backfillCols df

/-! ### The claims -/

/-- C1 (counterexample): the claimed identity-column priority — "software"
or "software name", then "component", then the eight-key fallback list — is
not what either variant implements: `src/app.py` never recognizes a header
normalizing to "software name" (the header set `["Software Name"]` yields
no identity column), and `src/app_stable.py` consults "name" before
"component". -/
theorem C1_counterexample :
    ¬ (∀ cols : List String,
        software_key cols = spec_identity_inference cols ∧
        software_key_stable cols = spec_identity_inference cols) := by
  intro h
  have h1 := (h ["Software Name"]).1
  rw [show software_key ["Software Name"] = none from by decide] at h1
  rw [show spec_identity_inference ["Software Name"] = some "Software Name" from by decide] at h1
  cases h1

/-- C1 (amended): on a table whose headers have pairwise distinct
normalized keys, `src/app.py` selects the first header whose normalized key
equals "software", else "component", else the first key among
["name", "item", "asset", "module", "service", "application", "app name",
"product"] with a matching header ("software name" is not recognized);
`src/app_stable.py` selects "software name", else "software", else the
first key among ["name", "product", "application", "app name",
"component"]. -/
theorem C1_identity_inference (cols : List String)
    (h1 : (cols.map normalize_col).Nodup)
    (h2 : (cols.map normalize_col_stable).Nodup) :
    software_key cols = spec_identity_app cols ∧
    software_key_stable cols = spec_identity_stable cols := by
  constructor
  · unfold software_key spec_identity_app
    rw [lookupLast_eq_find normalize_col "software" h1,
        lookupLast_eq_find normalize_col "component" h1,
        firstLookup_eq_firstFindBy normalize_col h1]
  · unfold software_key_stable spec_identity_stable
    rw [lookupLast_eq_find normalize_col_stable "software name" h2,
        lookupLast_eq_find normalize_col_stable "software" h2,
        firstLookup_eq_firstFindBy normalize_col_stable h2]

/-- Witness for C1: the amended inference evaluated on the header set
["Component", "Name"] (both variants pick a column: app.py "Component",
the stable variant "Name"). -/
theorem C1_identity_inference_witness :
    ((["Component", "Name"].map normalize_col).Nodup ∧
     (["Component", "Name"].map normalize_col_stable).Nodup) ∧
    (software_key ["Component", "Name"] = spec_identity_app ["Component", "Name"] ∧
     software_key_stable ["Component", "Name"] = spec_identity_stable ["Component", "Name"]) :=
  ⟨⟨by decide, by decide⟩,
   C1_identity_inference ["Component", "Name"] (by decide) (by decide)⟩

/-- C2 (counterexample): the module-level preparation drops no rows — on
the raw table `[{"Software": " "}, {"Software": "Tool A"}]` the resulting
table still has two records (the whitespace-identity row included), not
exactly one as claimed. -/
theorem C2_counterexample :
    prepareApp exampleWsTable = Except.ok exampleWsTable ∧
    exampleWsTable.rows.length ≠ 1 ∧
    pyStrip (cellStr (softwareCell exampleWsTable [some " "])) = "" := by
  refine ⟨by rfl, by decide, by decide⟩

/-- C2 (amended): neither variant excludes rows with an empty-after-trim
identity: the prepared table of `src/app.py` keeps the raw rows unchanged
and the stable variant keeps their number; only the distinct-identity
listing `unique_software` excludes empty and whitespace-only identities
(on the example table it lists exactly "Tool A"). -/
theorem C2_rows_retained (df df2 t t2 : DataFrame)
    (h : prepareApp df = Except.ok t)
    (h2 : prepareStable df2 = Except.ok t2) :
    t.rows = df.rows ∧ t2.rows.length = df2.rows.length ∧
    unique_software exampleWsTable = ["Tool A"] := by
  refine ⟨?_, ?_, by decide⟩
  · unfold prepareApp at h
    split at h
    · injection h with h3
      rw [← h3, coerce_software_rows, stripCols_rows]
    · cases h
  · by_cases hc : "Software" ∈ (coerce_to_oss_columns (stripCols df2)).cols
    · rw [prepareStable, if_pos hc] at h2
      rw [← Except.ok.inj h2, backfill_rows_length, coerce_oss_rows, stripCols_rows]
    · rw [prepareStable, if_neg hc] at h2
      cases h2

/-- Witness for C2: the amended statement evaluated on the example table. -/
theorem C2_rows_retained_witness :
    (prepareApp exampleWsTable = Except.ok exampleWsTable ∧
     prepareStable exampleWsTable = Except.ok exampleWsStableResult) ∧
    (exampleWsTable.rows = exampleWsTable.rows ∧
     exampleWsStableResult.rows.length = exampleWsTable.rows.length ∧
     unique_software exampleWsTable = ["Tool A"]) :=
  ⟨⟨by rfl, by rfl⟩,
   C2_rows_retained exampleWsTable exampleWsTable exampleWsTable exampleWsStableResult
     (by rfl) (by rfl)⟩

/-- C3: on a table with a Software column, the detail lookup returns
exactly the records whose identity equals the requested identity under
case-insensitive comparison, in table order (a filter of the rows), and
hence the empty sequence when nothing matches. -/
theorem C3_resolve_detail (df : DataFrame) (identity : String)
    (h : "Software" ∈ df.cols) :
    resolve_detail df identity =
      df.rows.filter (fun r => pyLower (cellStr (softwareCell df r)) == pyLower identity) := by
  obtain ⟨i, hi⟩ := colIdx_some_of_mem h
  have hsc : ∀ r : List (Option String), softwareCell df r = r.getD i none :=
    softwareCell_eq hi
  rw [resolve_detail, getCol, hi, List.map_map, selectMask_map]
  simp only [hsc]
  rfl

/-- Witness for C3: both records named "Widget" are returned for the
mixed-case query "widget". -/
theorem C3_resolve_detail_witness :
    ("Software" ∈ widgetTable.cols) ∧
    resolve_detail widgetTable "widget" =
      widgetTable.rows.filter
        (fun r => pyLower (cellStr (softwareCell widgetTable r)) == pyLower "widget") :=
  ⟨by decide, C3_resolve_detail widgetTable "widget" (by decide)⟩

theorem pyContains_reEscape_true (q s : String) :
    pyContains s (reEscape q) true = true ↔ (pyLower q).data <:+: (pyLower s).data := by
  have hp : parseEscaped (reEscape q).data = some q.data := parseEscaped_reEscape q
  simp only [pyContains, hp, if_true]
  exact infixCheck_iff (q.data.map Char.toLower) (s.data.map Char.toLower)

theorem pyContains_reEscape_false (q s : String) :
    pyContains s (reEscape q) false = true ↔ q.data <:+: s.data := by
  have hp : parseEscaped (reEscape q).data = some q.data := parseEscaped_reEscape q
  simp only [pyContains, hp, Bool.false_eq_true, if_false]
  exact infixCheck_iff q.data s.data

/-- C5: the search predicate treats the query as literal text — after
`re.escape`, a stringified identity matches iff it contains the query as a
case-insensitive substring (`case=False` form used by `src/app.py`), and a
pre-lowered identity matches the escaped pattern iff it contains the raw
query (form used by `src/app_stable.py`); escaped metacharacters never act
as pattern syntax. -/
theorem C5_search_literal (q s : String) :
    (pyContains s (reEscape q) true = true ↔ (pyLower q).data <:+: (pyLower s).data) ∧
    (pyContains s (reEscape q) false = true ↔ q.data <:+: s.data) :=
  ⟨pyContains_reEscape_true q s, pyContains_reEscape_false q s⟩

/-- C4: with no text query and no category filter, the identity listing
`unique_software` is sorted ascending in the code-point order on the raw
strings, duplicate-free, consists exactly of the non-empty trimmed
identities of the table's records, each already trimmed, and is identical
across repeated calls on the unchanged table. -/
theorem C4_unique_software (df : DataFrame) :
    List.Pairwise (fun a b => strLe a b = true) (unique_software df) ∧
    (unique_software df).Nodup ∧
    (∀ s, s ∈ unique_software df ↔
      (s ≠ "" ∧ ∃ c ∈ getCol df "Software", ∃ v, c = some v ∧ pyStrip v = s)) ∧
    (∀ s ∈ unique_software df, pyStrip s = s) ∧
    unique_software df = unique_software df := by
  refine ⟨?_, ?_, ?_, ?_, rfl⟩
  · exact sortOrd_pairwise strLe strLe_trans strLe_total _
  · exact nodup_sortOrd strLe (nodup_pdUnique _)
  · intro s
    simp only [unique_software, mem_sortOrd, mem_pdUnique, List.mem_filter, List.mem_map,
      List.mem_filterMap, id_eq]
    constructor
    · rintro ⟨⟨v, ⟨c, hc, hcv⟩, hvs⟩, hne⟩
      exact ⟨by simpa using hne, c, hc, v, hcv, hvs⟩
    · rintro ⟨hne, c, hc, v, hcv, hvs⟩
      exact ⟨⟨v, ⟨c, hc, hcv⟩, hvs⟩, by simpa using hne⟩
  · intro s hs
    have hs2 : s ∈ (((getCol df "Software").filterMap id).map pyStrip).filter
        (fun x => !(x == "")) :=
      (mem_pdUnique s _).1 ((mem_sortOrd strLe).1 hs)
    rcases List.mem_map.1 (List.mem_filter.1 hs2).1 with ⟨v, _, hv⟩
    rw [← hv, pyStrip_idem]

/-- Helper for C6: when the app variant infers no identity column, no
column is literally named "Software" either. -/
theorem software_key_none_not_mem {cols : List String}
    (h : software_key cols = none) : "Software" ∉ cols := by
  have hB : lookupLast normalize_col cols "software" = none := by
    cases hA : lookupLast normalize_col cols "software" with
    | none => rfl
    | some c =>
      unfold software_key at h
      rw [hA] at h
      simp at h
  rw [lookupLast, List.getLast?_eq_none_iff] at hB
  intro hmem
  exact (List.filter_eq_nil_iff.1 hB "Software" hmem) (by decide)

/-- Helper for C6: the stable analogue. -/
theorem software_key_stable_none_not_mem {cols : List String}
    (h : software_key_stable cols = none) : "Software" ∉ cols := by
  have hB : lookupLast normalize_col_stable cols "software" = none := by
    cases hA : lookupLast normalize_col_stable cols "software name" with
    | some c =>
      unfold software_key_stable at h
      rw [hA] at h
      simp at h
    | none =>
      cases hB2 : lookupLast normalize_col_stable cols "software" with
      | none => rfl
      | some c =>
        unfold software_key_stable at h
        rw [hA, hB2] at h
        simp at h
  rw [lookupLast, List.getLast?_eq_none_iff] at hB
  intro hmem
  exact (List.filter_eq_nil_iff.1 hB "Software" hmem) (by decide)

theorem renameOpt_not_mem {m n : String} (hn : n ≠ m) {d : DataFrame}
    {o : Option String} (h : m ∉ d.cols) : m ∉ (renameOpt d o n).cols := by
  cases o with
  | none => exact h
  | some c =>
    intro hmem
    rcases List.mem_map.1 hmem with ⟨x, hx, hxm⟩
    by_cases hxc : x = c
    · rw [if_pos hxc] at hxm
      exact hn hxm
    · rw [if_neg hxc] at hxm
      exact h (hxm ▸ hx)

theorem coerce_oss_not_mem_software {d : DataFrame}
    (h : software_key_stable d.cols = none) (hs : "Software" ∉ d.cols) :
    "Software" ∉ (coerce_to_oss_columns d).cols := by
  unfold coerce_to_oss_columns
  apply renameOpt_not_mem (show "Description" ≠ "Software" from by decide)
  apply renameOpt_not_mem (show "LinuxURL" ≠ "Software" from by decide)
  apply renameOpt_not_mem (show "MacURL" ≠ "Software" from by decide)
  apply renameOpt_not_mem (show "WindowsURL" ≠ "Software" from by decide)
  apply renameOpt_not_mem (show "License" ≠ "Software" from by decide)
  apply renameOpt_not_mem (show "Category" ≠ "Software" from by decide)
  apply renameOpt_not_mem (show "Version" ≠ "Software" from by decide)
  rw [h]
  exact hs

/-- C6: when no identity column can be inferred from the (stripped)
headers, both pipelines stop with a configuration error: no canonical
table is produced. -/
theorem C6_configuration_error (df df2 : DataFrame)
    (h : software_key (stripCols df).cols = none)
    (h2 : software_key_stable (stripCols df2).cols = none) :
    prepareApp df = Except.error PrepError.configurationError ∧
    prepareStable df2 = Except.error PrepError.configurationError := by
  constructor
  · have hnot : "Software" ∉ (coerce_to_software_column (stripCols df)).cols := by
      unfold coerce_to_software_column
      rw [h]
      exact software_key_none_not_mem h
    unfold prepareApp
    rw [if_neg hnot]
  · have hnot : "Software" ∉ (coerce_to_oss_columns (stripCols df2)).cols :=
      coerce_oss_not_mem_software h2 (software_key_stable_none_not_mem h2)
    unfold prepareStable
    rw [if_neg hnot]

/-- Witness for C6: the header set ["Foo", "Bar"] halts both pipelines. -/
theorem C6_configuration_error_witness :
    (software_key (stripCols fooBarTable).cols = none ∧
     software_key_stable (stripCols fooBarTable).cols = none) ∧
    (prepareApp fooBarTable = Except.error PrepError.configurationError ∧
     prepareStable fooBarTable = Except.error PrepError.configurationError) :=
  ⟨⟨by decide, by decide⟩,
   C6_configuration_error fooBarTable fooBarTable (by decide) (by decide)⟩

theorem startsWith_contains {p s : String} (h : startsWithPartial p s = true) :
    containsPartial p s = true := by
  rw [startsWithPartial, pyStartswith] at h
  rw [containsPartial, infixCheck_iff]
  rcases List.isPrefixOf_iff_prefix.1 h with ⟨t, ht⟩
  exact ⟨[], t, by simpa using ht⟩

/-- C7: `suggest` (spec-modelled; the repository has no implementation)
returns at most `limit` identities with no repetition, every returned
identity contains the partial query case-insensitively, every
"starts-with" match precedes every "contains-only" match with each tier in
ascending order, and an empty partial yields the empty sequence. -/
theorem C7_suggest (table : List (String × Option String)) (p : String)
    (cf : Option String) (limit : Nat) :
    (p = "" → suggest table p cf limit = []) ∧
    (suggest table p cf limit).length ≤ limit ∧
    (suggest table p cf limit).Nodup ∧
    (∀ s ∈ suggest table p cf limit, containsPartial p s = true) ∧
    List.Pairwise
      (fun a b => (startsWithPartial p b = true → startsWithPartial p a = true) ∧
        (startsWithPartial p a = startsWithPartial p b → strLe a b = true))
      (suggest table p cf limit) := by
  by_cases hp : p = ""
  · subst hp
    have he : suggest table "" cf limit = [] := by
      rw [suggest, if_pos (by simp)]
    simp [he]
  · have he : suggest table p cf limit =
      ((sortOrd strLe ((suggestIdents table cf).filter (fun s => startsWithPartial p s))) ++
       (sortOrd strLe ((suggestIdents table cf).filter
          (fun s => containsPartial p s && !(startsWithPartial p s))))).take limit := by
      rw [suggest, if_neg (by simpa using hp)]
    set t1 := sortOrd strLe ((suggestIdents table cf).filter (fun s => startsWithPartial p s))
    set t2 := sortOrd strLe ((suggestIdents table cf).filter
      (fun s => containsPartial p s && !(startsWithPartial p s)))
    have hm1 : ∀ s ∈ t1, startsWithPartial p s = true := by
      intro s hs
      exact (List.mem_filter.1 ((mem_sortOrd strLe).1 hs)).2
    have hm2 : ∀ s ∈ t2, containsPartial p s = true ∧ startsWithPartial p s = false := by
      intro s hs
      have h3 := (List.mem_filter.1 ((mem_sortOrd strLe).1 hs)).2
      rw [Bool.and_eq_true, Bool.not_eq_true'] at h3
      exact h3
    have hnd : (t1 ++ t2).Nodup := by
      rw [List.nodup_append]
      refine ⟨nodup_sortOrd _ (List.Nodup.filter _ (nodup_pdUnique _)),
              nodup_sortOrd _ (List.Nodup.filter _ (nodup_pdUnique _)), ?_⟩
      intro a ha hb
      have h1 := hm1 a ha
      have h2 := (hm2 a hb).2
      rw [h1] at h2
      cases h2
    have hpw : List.Pairwise
        (fun a b => (startsWithPartial p b = true → startsWithPartial p a = true) ∧
          (startsWithPartial p a = startsWithPartial p b → strLe a b = true))
        (t1 ++ t2) := by
      rw [List.pairwise_append]
      refine ⟨?_, ?_, ?_⟩
      · refine List.Pairwise.imp_of_mem ?_ (sortOrd_pairwise strLe strLe_trans strLe_total _)
        intro a b ha hb hle
        exact ⟨fun _ => hm1 a ha, fun _ => hle⟩
      · refine List.Pairwise.imp_of_mem ?_ (sortOrd_pairwise strLe strLe_trans strLe_total _)
        intro a b ha hb hle
        constructor
        · intro hsb
          rw [(hm2 b hb).2] at hsb
          cases hsb
        · intro _
          exact hle
      · intro a ha b hb
        constructor
        · intro hsb
          rw [(hm2 b hb).2] at hsb
          cases hsb
        · intro heq
          rw [hm1 a ha, (hm2 b hb).2] at heq
          cases heq
    refine ⟨fun hpe => absurd hpe hp, ?_, ?_, ?_, ?_⟩
    · rw [he]
      exact List.length_take_le limit _
    · rw [he]
      exact List.Nodup.sublist (List.take_sublist _ _) hnd
    · rw [he]
      intro s hs
      rcases List.mem_append.1 ((List.take_sublist _ _).subset hs) with h1 | h1
      · exact startsWith_contains (hm1 s h1)
      · exact (hm2 s h1).1
    · rw [he]
      exact List.Pairwise.sublist (List.take_sublist _ _) hpw

/-- C8: a platform download link is rendered as a valid button exactly
when the trimmed value is non-empty and starts, case-insensitively, with
"http://" or "https://" — in both the details panel of `src/app.py` and
`link_button` of `src/app_stable.py`; anything else is the "no valid link"
state. -/
theorem C8_link_validity (v : Option String) :
    (downloadUrlValid v = true ↔
      (pyStrip (pyStrOr v) ≠ "" ∧
        (pyStartswith (pyLower (pyStrip (pyStrOr v))) "http://" = true ∨
         pyStartswith (pyLower (pyStrip (pyStrOr v))) "https://" = true))) ∧
    (link_button_valid v = true ↔
      (pyStrip (v.getD "") ≠ "" ∧
        (pyStartswith (pyLower (pyStrip (v.getD ""))) "http://" = true ∨
         pyStartswith (pyLower (pyStrip (v.getD ""))) "https://" = true))) := by
  constructor
  · rw [downloadUrlValid, Bool.or_eq_true]
    constructor
    · intro hd
      refine ⟨?_, hd⟩
      intro he
      rw [he] at hd
      rcases hd with h | h
      · exact absurd h (by decide)
      · exact absurd h (by decide)
    · rintro ⟨_, hd⟩
      exact hd
  · rw [link_button_valid, Bool.and_eq_true, Bool.or_eq_true]
    constructor
    · rintro ⟨hne, hd⟩
      exact ⟨by simpa using hne, hd⟩
    · rintro ⟨hne, hd⟩
      exact ⟨by simpa using hne, hd⟩

/-! ### Rectangularity and the backfill loop -/

theorem rect_stripCols {d : DataFrame} (h : Rect d) : Rect (stripCols d) := by
  intro r hr
  have h2 := h r hr
  simpa [stripCols] using h2

theorem rect_rename {d : DataFrame} (h : Rect d) (o n : String) : Rect (rename d o n) := by
  intro r hr
  simpa [rename] using h r hr

theorem rect_renameOpt {d : DataFrame} (h : Rect d) (o : Option String) (n : String) :
    Rect (renameOpt d o n) := by
  cases o
  · exact h
  · exact rect_rename h _ _

theorem rect_coerce_oss {d : DataFrame} (h : Rect d) : Rect (coerce_to_oss_columns d) := by
  unfold coerce_to_oss_columns
  exact rect_renameOpt (rect_renameOpt (rect_renameOpt (rect_renameOpt (rect_renameOpt
    (rect_renameOpt (rect_renameOpt (rect_renameOpt h _ _) _ _) _ _) _ _) _ _) _ _) _ _) _ _

theorem rect_addCol {d : DataFrame} (h : Rect d) (n : String) : Rect (addCol d n) := by
  intro r hr
  rcases List.mem_map.1 hr with ⟨r0, hr0, rfl⟩
  simp [addCol, h r0 hr0]

theorem rect_ensureCol {d : DataFrame} (h : Rect d) (n : String) : Rect (ensureCol d n) := by
  unfold ensureCol
  split
  · exact h
  · exact rect_addCol h n

theorem colIdx_lt_length {cols : List String} {n : String} {i : Nat}
    (h : colIdx cols n = some i) : i < cols.length := by
  induction cols generalizing i with
  | nil => cases h
  | cons a t ih =>
    by_cases ha : (a == n) = true
    · rw [colIdx, if_pos ha] at h
      injection h with h2
      subst h2
      simp
    · rw [colIdx, if_neg ha] at h
      rcases Option.map_eq_some'.1 h with ⟨j, hj, rfl⟩
      simpa using Nat.succ_lt_succ (ih hj)

theorem colIdx_append_right {cols : List String} {n : String} (h : n ∉ cols) :
    colIdx (cols ++ [n]) n = some cols.length := by
  induction cols with
  | nil => simp [colIdx]
  | cons a t ih =>
    simp only [List.mem_cons, not_or] at h
    have ha : ¬((a == n) = true) := by
      simp only [beq_iff_eq]
      intro hh
      exact h.1 hh.symm
    rw [show (a :: t) ++ [n] = a :: (t ++ [n]) from rfl, colIdx, if_neg ha, ih h.2]
    simp

theorem colIdx_append_left {cols : List String} {n : String} (l2 : List String)
    (h : n ∈ cols) : colIdx (cols ++ l2) n = colIdx cols n := by
  induction cols with
  | nil => cases h
  | cons a t ih =>
    by_cases ha : (a == n) = true
    · rw [show (a :: t) ++ l2 = a :: (t ++ l2) from rfl, colIdx, if_pos ha, colIdx, if_pos ha]
    · have hn : n ∈ t := by
        rcases List.mem_cons.1 h with rfl | hh
        · exact absurd (by simp) ha
        · exact hh
      rw [show (a :: t) ++ l2 = a :: (t ++ l2) from rfl, colIdx, if_neg ha, colIdx, if_neg ha,
        ih hn]

theorem getCol_addCol_new {d : DataFrame} {n : String} (hre : Rect d) (h : n ∉ d.cols) :
    ∀ v ∈ getCol (addCol d n) n, v = none := by
  intro v hv
  have hidx : colIdx (addCol d n).cols n = some d.cols.length := by
    rw [show (addCol d n).cols = d.cols ++ [n] from rfl]
    exact colIdx_append_right h
  rw [getCol_eq_map hidx] at hv
  rcases List.mem_map.1 hv with ⟨r, hr, rfl⟩
  rcases List.mem_map.1 hr with ⟨r0, hr0, rfl⟩
  rw [List.getD_eq_getElem?_getD, ← hre r0 hr0, List.getElem?_concat_length]
  rfl

theorem getCol_addCol_old {d : DataFrame} {n m : String} (hre : Rect d) (hmem : n ∈ d.cols) :
    getCol (addCol d m) n = getCol d n := by
  rcases colIdx_some_of_mem hmem with ⟨i, hi⟩
  have hidx : colIdx (addCol d m).cols n = some i := by
    rw [show (addCol d m).cols = d.cols ++ [m] from rfl, colIdx_append_left [m] hmem, hi]
  rw [getCol_eq_map hidx, getCol_eq_map hi]
  rw [show (addCol d m).rows = d.rows.map (fun r => r ++ [none]) from rfl, List.map_map]
  apply List.map_congr_left
  intro r hr
  have hlt : i < r.length := by
    rw [hre r hr]
    exact colIdx_lt_length hi
  show (r ++ [none]).getD i none = r.getD i none
  rw [List.getD_eq_getElem?_getD, List.getD_eq_getElem?_getD, List.getElem?_append,
    if_pos hlt]

theorem mem_cols_addCol {d : DataFrame} {n : String} (m : String) (h : n ∈ d.cols) :
    n ∈ (addCol d m).cols := by
  simp [addCol, h]

theorem mem_cols_addCol_self (d : DataFrame) (n : String) : n ∈ (addCol d n).cols := by
  simp [addCol]

theorem mem_cols_ensureCol {d : DataFrame} {n : String} (m : String) (h : n ∈ d.cols) :
    n ∈ (ensureCol d m).cols := by
  unfold ensureCol
  split
  · exact h
  · exact mem_cols_addCol m h

theorem mem_cols_ensureCol_self (d : DataFrame) (n : String) : n ∈ (ensureCol d n).cols := by
  unfold ensureCol
  split
  · next h => exact h
  · next h => exact mem_cols_addCol_self d n

theorem allNone_ensureCol {d : DataFrame} {n : String} (m : String) (hre : Rect d)
    (hmem : n ∈ d.cols) (hall : ∀ v ∈ getCol d n, v = none) :
    ∀ v ∈ getCol (ensureCol d m) n, v = none := by
  unfold ensureCol
  split
  · exact hall
  · rw [getCol_addCol_old hre hmem]
    exact hall

theorem foldl_ensureCol_mem_old (l : List String) {d : DataFrame} {n : String}
    (hmem : n ∈ d.cols) : n ∈ (l.foldl ensureCol d).cols := by
  induction l generalizing d with
  | nil => exact hmem
  | cons m t ih =>
    rw [List.foldl_cons]
    exact ih (mem_cols_ensureCol m hmem)

theorem foldl_ensureCol_preserve (l : List String) {d : DataFrame} {n : String}
    (hre : Rect d) (hmem : n ∈ d.cols) (hall : ∀ v ∈ getCol d n, v = none) :
    n ∈ (l.foldl ensureCol d).cols ∧ ∀ v ∈ getCol (l.foldl ensureCol d) n, v = none := by
  induction l generalizing d with
  | nil => exact ⟨hmem, hall⟩
  | cons m t ih =>
    rw [List.foldl_cons]
    exact ih (rect_ensureCol hre m) (mem_cols_ensureCol m hmem) (allNone_ensureCol m hre hmem hall)

theorem foldl_ensureCol_new (l : List String) {d : DataFrame} {n : String}
    (hre : Rect d) (hnot : n ∉ d.cols) (hn : n ∈ l) :
    n ∈ (l.foldl ensureCol d).cols ∧ ∀ v ∈ getCol (l.foldl ensureCol d) n, v = none := by
  induction l generalizing d with
  | nil => cases hn
  | cons m t ih =>
    rw [List.foldl_cons]
    by_cases hmn : m = n
    · subst hmn
      have hec : ensureCol d m = addCol d m := by
        unfold ensureCol
        rw [if_neg hnot]
      rw [hec]
      exact foldl_ensureCol_preserve t (rect_addCol hre m) (mem_cols_addCol_self d m)
        (getCol_addCol_new hre hnot)
    · have hn2 : n ∈ t := by
        rcases List.mem_cons.1 hn with rfl | hh
        · exact absurd rfl hmn
        · exact hh
      have hnot2 : n ∉ (ensureCol d m).cols := by
        unfold ensureCol
        split
        · exact hnot
        · intro hmem2
          simp only [addCol, List.mem_append, List.mem_singleton] at hmem2
          rcases hmem2 with h1 | h1
          · exact hnot h1
          · exact hmn h1.symm
      exact ih (rect_ensureCol hre m) hnot2 hn2

/-- C9: after normalization, the stable variant's table always contains
the columns Version, Category, License, WindowsURL, MacURL, LinuxURL and
Description; any of them that the coercion did not produce from the raw
headers is created with a missing (`none`) value in every row, so
downstream access to these canonical columns is total. -/
theorem C9_backfilled_columns (df t : DataFrame) (c : String)
    (hre : Rect df)
    (h : prepareStable df = Except.ok t)
    (hc : c ∈ backfillCols) :
    c ∈ t.cols ∧
    (c ∉ (coerce_to_oss_columns (stripCols df)).cols → ∀ v ∈ getCol t c, v = none) := by
  have hrect2 : Rect (coerce_to_oss_columns (stripCols df)) :=
    rect_coerce_oss (rect_stripCols hre)
  by_cases hok : "Software" ∈ (coerce_to_oss_columns (stripCols df)).cols
  · rw [prepareStable, if_pos hok] at h
    have ht := Except.ok.inj h
    subst ht
    constructor
    · by_cases hmem : c ∈ (coerce_to_oss_columns (stripCols df)).cols
      · exact foldl_ensureCol_mem_old backfillCols hmem
      · exact (foldl_ensureCol_new backfillCols hrect2 hmem hc).1
    · intro hnot
      exact (foldl_ensureCol_new backfillCols hrect2 hnot hc).2
  · rw [prepareStable, if_neg hok] at h
    cases h

/-- Witness for C9: on a table with only a Software column, the prepared
stable table holds all seven canonical columns with all-missing values. -/
theorem C9_backfilled_columns_witness :
    (Rect oneItemTable ∧ prepareStable oneItemTable = Except.ok oneItemStableResult ∧
     "Version" ∈ backfillCols) ∧
    ("Version" ∈ oneItemStableResult.cols ∧
     ("Version" ∉ (coerce_to_oss_columns (stripCols oneItemTable)).cols →
       ∀ v ∈ getCol oneItemStableResult "Version", v = none)) :=
  ⟨⟨by decide, by rfl, by decide⟩,
   C9_backfilled_columns oneItemTable oneItemStableResult "Version" (by decide) (by rfl)
     (by decide)⟩

/-- C10: with no current selection, a non-empty query, and exactly one
distinct identity in the filtered Software column, `src/app.py`
auto-selects that identity (`iloc[0]` of the filtered column) and the
resulting selection is truthy, so the details panel renders without a
card click. -/
theorem C10_auto_select (df : DataFrame) (q : String) (v : Option String)
    (hq : q ≠ "")
    (hu : pdUnique (getCol (sortRowsBySoftware (searchFilterApp df q)) "Software") = [v]) :
    autoSelectApp none q (sortRowsBySoftware (searchFilterApp df q)) = some v ∧
    pyFalsy (autoSelectApp none q (sortRowsBySoftware (searchFilterApp df q))) = false := by
  obtain ⟨hcne, hall⟩ := pdUnique_eq_singleton hu
  have hqb : (q == "") = false := beq_eq_false_iff_ne.2 hq
  have hhead : (getCol (sortRowsBySoftware (searchFilterApp df q)) "Software").headD none = v := by
    cases hcol : getCol (sortRowsBySoftware (searchFilterApp df q)) "Software" with
    | nil => exact absurd hcol hcne
    | cons a t =>
      have ha : a = v := hall a (by rw [hcol]; exact List.mem_cons_self a t)
      simpa using ha
  have hsel : autoSelectApp none q (sortRowsBySoftware (searchFilterApp df q)) = some v := by
    rw [autoSelectApp, hu, hhead]
    simp [pyFalsy, hqb]
  refine ⟨hsel, ?_⟩
  rw [hsel]
  have hvmem : v ∈ getCol (sortRowsBySoftware (searchFilterApp df q)) "Software" := by
    have hv2 : v ∈ pdUnique (getCol (sortRowsBySoftware (searchFilterApp df q)) "Software") := by
      rw [hu]
      exact List.mem_singleton.2 rfl
    exact (mem_pdUnique v _).1 hv2
  have hFcols : (sortRowsBySoftware (searchFilterApp df q)).cols = df.cols := by
    show (searchFilterApp df q).cols = df.cols
    rw [searchFilterApp, if_neg (by simp [hqb])]
  cases hcase : colIdx df.cols "Software" with
  | none =>
    exfalso
    apply hcne
    rw [getCol, hFcols, hcase]
  | some i =>
    have hidx : colIdx (sortRowsBySoftware (searchFilterApp df q)).cols "Software" = some i := by
      rw [hFcols, hcase]
    rw [getCol_eq_map hidx] at hvmem
    rcases List.mem_map.1 hvmem with ⟨r, hr, hrv⟩
    have hperm : (sortRowsBySoftware (searchFilterApp df q)).rows.Perm
        (searchFilterApp df q).rows :=
      sortOrd_perm _ _
    have hr2 : r ∈ (searchFilterApp df q).rows := hperm.mem_iff.1 hr
    rw [searchFilterApp, if_neg (by simp [hqb])] at hr2
    rw [show (DataFrame.mk df.cols
        (selectMask df.rows
          ((getCol df "Software").map
            (fun c => pyContains (cellStr c) (reEscape q) true)))).rows =
        selectMask df.rows
          ((getCol df "Software").map
            (fun c => pyContains (cellStr c) (reEscape q) true)) from rfl] at hr2
    rw [getCol_eq_map hcase, List.map_map, selectMask_map] at hr2
    have hpred : pyContains (cellStr (r.getD i none)) (reEscape q) true = true :=
      (List.mem_filter.1 hr2).2
    rw [hrv] at hpred
    cases v with
    | none => rfl
    | some s =>
      have hs : s ≠ "" := by
        intro hse
        subst hse
        have hinf : (pyLower q).data <:+: (pyLower (cellStr (some ""))).data :=
          (pyContains_reEscape_true q (cellStr (some ""))).1 hpred
        have h0 : (pyLower q).data = [] := List.infix_nil.1 hinf
        have h1 : q.data = [] := by
          have h2 : q.data.map Char.toLower = [] := h0
          exact List.map_eq_nil_iff.1 h2
        exact hq (string_data_eq_nil.1 h1)
      show (s == "") = false
      exact beq_eq_false_iff_ne.2 hs

/-- Witness for C10: searching "wid" over the one-row Widget table selects
"Widget" automatically. -/
theorem C10_auto_select_witness :
    ("wid" ≠ "" ∧
     pdUnique (getCol (sortRowsBySoftware (searchFilterApp widTable "wid")) "Software") =
       [some "Widget"]) ∧
    (autoSelectApp none "wid" (sortRowsBySoftware (searchFilterApp widTable "wid")) =
       some (some "Widget") ∧
     pyFalsy (autoSelectApp none "wid" (sortRowsBySoftware (searchFilterApp widTable "wid"))) =
       false) :=
  ⟨⟨by decide, by rfl⟩, C10_auto_select widTable "wid" (some "Widget") (by decide) (by rfl)⟩

end Catalog
